/-
Verification of the GC9A01A display driver (Rust) against its
natural-language specification.

Shallow embedding notes:
* Machine integers are modelled as `Nat` (unsigned types) or `Int`
  (signed i32 coordinates), with explicit `% 2^16` / `% 2^32` wherever the
  source performs an `as u16` / `as u32` cast or wrapping arithmetic.
* The SPI/pin transport is modelled as a trace of emitted events
  (`Ev.cmd` for a command byte written with DC low, `Ev.dat` for a data
  byte slice written with DC high); each `spi.write` call consumes one
  slot of a failure oracle `Nat → Bool` deciding whether that write
  succeeds.  Rust's `?` early return is modelled by the `ok` flag of the
  transport state: once `ok = false`, every later emission is a no-op.
* Buffers are `List Nat` of bytes; Rust slice indexing that would panic
  out of bounds is modelled with truncating `drop/take` and is only used
  under the in-bounds hypotheses of the claims.
* `show` from the source is named `showBuffer` here because `show` is a
  Lean keyword.
-/
import Mathlib

namespace GC9A01A

/-- Truncating cast of a signed value to `u16` (low 16 bits of the
two's-complement representation), as in Rust's `as u16`. -/
def asU16 (v : Int) : Nat := (v.emod 65536).toNat

/-- Truncating cast of a signed value to `u32`, as in Rust's `as u32`. -/
def asU32 (v : Int) : Nat := (v.emod 4294967296).toNat

/-- Wrapping `u32` arithmetic result (release-mode Rust semantics). -/
def u32emod (v : Int) : Int := v.emod 4294967296

/-- Wrapping `u16` addition, as performed by `start_x + self.dx` on `u16`. -/
def u16add (a b : Nat) : Nat := (a + b) % 65536

/-- `u16::to_be_bytes`: big-endian byte pair of a 16-bit word. -/
def to_be_bytes (v : Nat) : List Nat := [v / 256 % 256, v % 256]

/-- `Region` from `src/lib.rs`: `{x: u16, y: u16, width: u32, height: u32}`. -/
structure Region where
  x : Nat
  y : Nat
  width : Nat
  height : Nat
deriving DecidableEq, Repr

/-- The driver state fields relevant to the claims: the calibration
offset `(dx, dy)`, the panel dimensions and the 10-slot dirty-region
array `regions : [Option<Region>; 10]`. -/
structure Driver where
  dx : Nat
  dy : Nat
  width : Nat
  height : Nat
  regions : List (Option Region)
deriving DecidableEq, Repr

/-- `GC9A01A::set_offset`: stores the global image offset. -/
def set_offset (d : Driver) (dx dy : Nat) : Driver :=
  { d with dx := dx, dy := dy }

/-- `GC9A01A::clear_regions`: resets the region array to `[None; 10]`. -/
def clear_regions (d : Driver) : Driver :=
  { d with regions := List.replicate 10 none }

/-- `GC9A01A::store_region`, acting on the `regions` array: scan for the
first `None` slot and fill it, returning `true` (Ok); if no slot is free
return the array unchanged with `false` (Err). -/
def store_region : List (Option Region) → Region → List (Option Region) × Bool
  | [], _ => ([], false)
  | none :: rest, r => (some r :: rest, true)
  | some r0 :: rest, r =>
      let p := store_region rest r
      (some r0 :: p.1, p.2)

/-- A sequence of `store_region` calls (as the application performs them);
returns the final array and whether every call returned Ok. -/
def storeSeq : List (Option Region) → List Region → List (Option Region) × Bool
  | s, [] => (s, true)
  | s, r :: rs =>
      let p := store_region s r
      let q := storeSeq p.1 rs
      (q.1, p.2 && q.2)

/-- One transport event: a command byte (DC low) or a data slice (DC high). -/
inductive Ev where
  | cmd (c : Nat)
  | dat (bs : List Nat)
deriving DecidableEq, Repr

/-- Transport state: a counter of attempted `spi.write` calls, the trace of
successfully emitted events, and the `ok` flag (false once a write failed,
modelling Rust's `?` early return). -/
structure St where
  ctr : Nat
  trace : List Ev
  ok : Bool
deriving DecidableEq, Repr

/-- The all-success failure oracle. -/
def okOracle : Nat → Bool := fun _ => true

/-- Attempt one `spi.write`; the oracle decides whether the n-th attempt
succeeds.  After a failure every further emission is a no-op. -/
def emit (oracle : Nat → Bool) (e : Ev) (s : St) : St :=
  if s.ok then
    if oracle s.ctr then ⟨s.ctr + 1, s.trace ++ [e], true⟩
    else ⟨s.ctr + 1, s.trace, false⟩
  else s

/-- `GC9A01A::write_data`: one `spi.write` of a data slice with DC high. -/
def write_data (oracle : Nat → Bool) (bs : List Nat) (s : St) : St :=
  emit oracle (Ev.dat bs) s

/-- `GC9A01A::write_command`: one `spi.write` of the command byte with DC
low, then (only when `params` is non-empty) one data write of the params. -/
def write_command (oracle : Nat → Bool) (c : Nat) (params : List Nat) (s : St) : St :=
  let s1 := emit oracle (Ev.cmd c) s
  if params.isEmpty then s1 else write_data oracle params s1

/-- `GC9A01A::write_word`: writes a 16-bit word big-endian. -/
def write_word (oracle : Nat → Bool) (v : Nat) (s : St) : St :=
  write_data oracle (to_be_bytes v) s

/-- `GC9A01A::set_address_window`: CASET (0x2A) then the two column words
offset by `dx`, then RASET (0x2B) and the two row words offset by `dy`. -/
def set_address_window (oracle : Nat → Bool) (d : Driver)
    (start_x start_y end_x end_y : Nat) (s : St) : St :=
  let s := write_command oracle 0x2A [] s
  let s := write_word oracle (u16add start_x d.dx) s
  let s := write_word oracle (u16add end_x d.dx) s
  let s := write_command oracle 0x2B [] s
  let s := write_word oracle (u16add start_y d.dy) s
  write_word oracle (u16add end_y d.dy) s

/-- `GC9A01A::show` (named `showBuffer` here): hard-coded CASET/RASET data
`[0x00,0x00,0x00,0xEF]`, RAMWR (0x2C), then the whole buffer in a single
`spi.write`. -/
def showBuffer (oracle : Nat → Bool) (buffer : List Nat) (s : St) : St :=
  let s := write_command oracle 0x2A [] s
  let s := write_data oracle [0x00, 0x00, 0x00, 0xEF] s
  let s := write_command oracle 0x2B [] s
  let s := write_data oracle [0x00, 0x00, 0x00, 0xEF] s
  let s := write_command oracle 0x2C [] s
  write_data oracle buffer s

/-- Fuel-driven worker for slice chunking (`<[u8]>::chunks(n)`); the fuel
is always instantiated with the list length, which suffices. -/
def chunksGo (fuel n : Nat) (l : List Nat) : List (List Nat) :=
  match fuel, l with
  | _, [] => []
  | 0, l => [l]
  | f + 1, x :: xs => (x :: xs.take (n - 1)) :: chunksGo f n (xs.drop (n - 1))

/-- Rust's `slice::chunks(n)`: splits a byte list into consecutive chunks
of size `n`, the last one possibly shorter. -/
def chunksBy (n : Nat) (l : List Nat) : List (List Nat) :=
  chunksGo l.length n l

/-- The bytes of one buffer row covered by a region of width `wr` starting
at column `x`, in a buffer of row stride `w` pixels:
`buffer[(row*w + x)*2 .. (row*w + x)*2 + wr*2]`. -/
def rowBytes (buffer : List Nat) (w x wr row : Nat) : List Nat :=
  (buffer.drop ((row * w + x) * 2)).take (wr * 2)

/-- `GC9A01A::show_region`: computes the inclusive end coordinates with
`u32` arithmetic cast to `u16`, sets the address window, sends RAMWR, then
streams each row of the region in 32-byte chunks. -/
def show_region (oracle : Nat → Bool) (buffer : List Nat) (d : Driver)
    (x y wr hr : Nat) (s : St) : St :=
  let ex := asU16 (u32emod ((x : Int) + (wr : Int) - 1))
  let ey := asU16 (u32emod ((y : Int) + (hr : Int) - 1))
  let s := set_address_window oracle d x y ex ey s
  let s := write_command oracle 0x2C [] s
  (List.range' y (ey + 1 - y)).foldl
    (fun st row =>
      (chunksBy 32 (rowBytes buffer d.width x wr row)).foldl
        (fun st2 c => write_data oracle c st2) st)
    s

/-- `GC9A01A::show_regions`: calls `show_region` for each occupied slot of
the region array, in slot order; a failure aborts the remaining work
(via the `ok` flag). -/
def show_regions (oracle : Nat → Bool) (buffer : List Nat) (d : Driver)
    (s : St) : St :=
  d.regions.foldl
    (fun st o =>
      match o with
      | some r => show_region oracle buffer d r.x r.y r.width r.height st
      | none => st)
    s

/-- `GC9A01A::show_regions_and_clear`: on transfer failure returns the
error leaving `regions` untouched; on success clears the region array. -/
def show_regions_and_clear (oracle : Nat → Bool) (buffer : List Nat)
    (d : Driver) (s : St) : Driver × St :=
  let s1 := show_regions oracle buffer d s
  if s1.ok then (clear_regions d, s1) else (d, s1)

/-- `slice::copy_from_slice` at a given start offset: overwrite
`l[start .. start + vals.length]` with `vals` (out-of-range positions are
left untouched, which never happens under the in-bounds hypotheses). -/
def writeSlice : List Nat → Nat → List Nat → List Nat
  | l, _, [] => l
  | l, i, v :: vs => writeSlice (l.set i v) (i + 1) vs

/-- `FrameBuffer::copy_region`: row-wise byte copy of a `src_width ×
src_height` rectangle at `(src_x, src_y)` in `src` (stride `w` pixels)
into this buffer at `(dest_x, dest_y)` (same stride). -/
def copy_region (dst src : List Nat) (w : Nat)
    (src_x src_y src_width src_height dest_x dest_y : Nat) : List Nat :=
  (List.range src_height).foldl
    (fun d row =>
      writeSlice d ((dest_y + row) * w * 2 + dest_x * 2)
        ((src.drop ((src_y + row) * w * 2 + src_x * 2)).take (src_width * 2)))
    dst

/-- One pixel write of `FrameBuffer::draw_iter` (`src/lib.rs:773-790`):
bounds-checked against `[0,width) × [0,height)`; an in-bounds write stores
the big-endian color bytes at `(y*width + x)*2`, an out-of-bounds write is
skipped. -/
def draw_pixel (buffer : List Nat) (w h : Nat) (cx cy : Int) (color : Nat) :
    List Nat :=
  if 0 ≤ cx ∧ cx < (w : Int) ∧ 0 ≤ cy ∧ cy < (h : Int) then
    let index := (cy.toNat * w + cx.toNat) * 2
    (buffer.set index (color / 256 % 256)).set (index + 1) (color % 256)
  else buffer

/-- `FrameBuffer::draw_iter`: folds `draw_pixel` over the pixel iterator;
always returns Ok, so it is modelled as a total function. -/
def draw_iter (buffer : List Nat) (w h : Nat)
    (pixels : List ((Int × Int) × Nat)) : List Nat :=
  pixels.foldl (fun b pc => draw_pixel b w h pc.1.1 pc.1.2 pc.2) buffer

/-- Whether byte index `j` lies inside the byte footprint of the
`sw × sh` pixel region at `(sx, sy)` of a buffer with stride `w` pixels. -/
def inRB (w sx sy sw sh j : Nat) : Bool :=
  (List.range sh).any fun r =>
    decide ((sy + r) * w * 2 + sx * 2 ≤ j) &&
    decide (j < (sy + r) * w * 2 + sx * 2 + sw * 2)

/-- Fold of the gauge example's min-x accumulator over the remaining
points (`if point.x < min_x { min_x = point.x }`). -/
def minXfold (a : Int) (l : List (Int × Int)) : Int :=
  l.foldl (fun m q => if q.1 < m then q.1 else m) a

/-- Max-x accumulator fold. -/
def maxXfold (a : Int) (l : List (Int × Int)) : Int :=
  l.foldl (fun m q => if q.1 > m then q.1 else m) a

/-- Min-y accumulator fold. -/
def minYfold (a : Int) (l : List (Int × Int)) : Int :=
  l.foldl (fun m q => if q.2 < m then q.2 else m) a

/-- Max-y accumulator fold. -/
def maxYfold (a : Int) (l : List (Int × Int)) : Int :=
  l.foldl (fun m q => if q.2 > m then q.2 else m) a

/-- `calculate_bounding_box` from `examples/gauge/src/main.rs`: min/max of
the point coordinates (i32), expanded by the padding on each side, with
the source's `as u16` / `as u32` casts.  The source indexes `points[0]`
and so panics on an empty slice; the claims only concern non-empty point
lists, for which the `[]` branch below is never reached. -/
def calculate_bounding_box : List (Int × Int) → Nat → Region
  | [], _ => ⟨0, 0, 0, 0⟩
  | p :: rest, padding =>
      let min_x := minXfold p.1 rest
      let max_x := maxXfold p.1 rest
      let min_y := minYfold p.2 rest
      let max_y := maxYfold p.2 rest
      let pad : Int := padding
      { x := asU16 (min_x - pad)
        y := asU16 (min_y - pad)
        width := asU32 (max_x - min_x + 2 * pad)
        height := asU32 (max_y - min_y + 2 * pad) }

/-- Modelled from the spec (for comparison with `showBuffer`): a
full-frame transfer that "sets the address window to span the entire
panel — columns 0 through w-1 and rows 0 through h-1, offset by (dx, dy)
as every address-window command is — then emits the memory-write command
and streams the whole buffer in one pass". -/
def claimedShow (oracle : Nat → Bool) (d : Driver) (buffer : List Nat)
    (s : St) : St :=
  let s := set_address_window oracle d 0 0 (d.width - 1) (d.height - 1) s
  let s := write_command oracle 0x2C [] s
  write_data oracle buffer s

/-- The event sequence emitted by a successful `set_address_window` call:
CASET, the two column words, RASET, the two row words. -/
def awTrace (d : Driver) (sx sy ex ey : Nat) : List Ev :=
  [Ev.cmd 0x2A, Ev.dat (to_be_bytes (u16add sx d.dx)),
   Ev.dat (to_be_bytes (u16add ex d.dx)), Ev.cmd 0x2B,
   Ev.dat (to_be_bytes (u16add sy d.dy)),
   Ev.dat (to_be_bytes (u16add ey d.dy))]

/-- The bytes an event puts on the SPI wire. -/
def evBytes : Ev → List Nat
  | Ev.cmd c => [c]
  | Ev.dat bs => bs

/-- The byte stream of a whole trace. -/
def traceBytes (t : List Ev) : List Nat :=
  (t.map evBytes).flatten

/-! ## Transport lemmas -/

lemma emit_ok (e : Ev) (s : St) (h : s.ok = true) :
    emit okOracle e s = ⟨s.ctr + 1, s.trace ++ [e], true⟩ := by
  simp [emit, okOracle, h]

lemma emit_notOk (o : Nat → Bool) (e : Ev) (s : St) (h : s.ok = false) :
    emit o e s = s := by
  simp [emit, h]

lemma write_data_notOk (o : Nat → Bool) (bs : List Nat) (s : St)
    (h : s.ok = false) : write_data o bs s = s := by
  simp [write_data, emit_notOk, h]

lemma write_command_notOk (o : Nat → Bool) (c : Nat) (params : List Nat)
    (s : St) (h : s.ok = false) : write_command o c params s = s := by
  unfold write_command
  rw [emit_notOk o _ s h]
  split
  · rfl
  · exact write_data_notOk o _ s h

lemma write_word_notOk (o : Nat → Bool) (v : Nat) (s : St)
    (h : s.ok = false) : write_word o v s = s := by
  simp [write_word, write_data_notOk, h]

lemma set_address_window_notOk (o : Nat → Bool) (d : Driver)
    (sx sy ex ey : Nat) (s : St) (h : s.ok = false) :
    set_address_window o d sx sy ex ey s = s := by
  simp [set_address_window, write_command_notOk, write_word_notOk, h]

lemma foldl_notOk {α : Type} (f : St → α → St)
    (hf : ∀ st a, st.ok = false → f st a = st) :
    ∀ (l : List α) (st : St), st.ok = false → l.foldl f st = st := by
  intro l
  induction l with
  | nil => intro st _; rfl
  | cons a l ih =>
      intro st h
      simp only [List.foldl_cons, hf st a h]
      exact ih st h

lemma show_region_notOk (o : Nat → Bool) (buffer : List Nat) (d : Driver)
    (x y wr hr : Nat) (s : St) (h : s.ok = false) :
    show_region o buffer d x y wr hr s = s := by
  simp only [show_region, set_address_window_notOk o d _ _ _ _ s h,
             write_command_notOk o _ _ s h]
  exact foldl_notOk _
    (fun st row hst =>
      foldl_notOk _ (fun st2 c h2 => write_data_notOk o c st2 h2) _ st hst)
    _ s h

/-- C5: with a calibration offset `(dx, dy)` stored by `set_offset`,
`set_address_window(start_x, start_y, end_x, end_y)` emits the
column-address-set command (0x2A) followed by the two 16-bit big-endian
words `start_x+dx` and `end_x+dx`, then the row-address-set command
(0x2B) followed by the two 16-bit big-endian words `start_y+dy` and
`end_y+dy`. -/
theorem set_address_window_emits (d0 : Driver) (ndx ndy sx sy ex ey : Nat)
    (s : St) (hok : s.ok = true) :
    set_address_window okOracle (set_offset d0 ndx ndy) sx sy ex ey s =
      ⟨s.ctr + 6,
       s.trace ++
         [Ev.cmd 0x2A, Ev.dat (to_be_bytes (u16add sx ndx)),
          Ev.dat (to_be_bytes (u16add ex ndx)), Ev.cmd 0x2B,
          Ev.dat (to_be_bytes (u16add sy ndy)),
          Ev.dat (to_be_bytes (u16add ey ndy))], true⟩ := by
  obtain ⟨c, tr, ok⟩ := s
  simp only [St.ok] at hok
  subst hok
  simp [set_address_window, set_offset, write_command, write_word,
        write_data, emit, okOracle]

/-- Witness for `set_address_window_emits` at a concrete input. -/
theorem set_address_window_emits_witness :
    set_address_window okOracle
        (set_offset ⟨0, 0, 240, 240, List.replicate 10 none⟩ 1 2) 3 4 5 6
        ⟨0, [], true⟩ =
      ⟨6,
       [Ev.cmd 0x2A, Ev.dat (to_be_bytes (u16add 3 1)),
        Ev.dat (to_be_bytes (u16add 5 1)), Ev.cmd 0x2B,
        Ev.dat (to_be_bytes (u16add 4 2)),
        Ev.dat (to_be_bytes (u16add 6 2))], true⟩ := by
  have h := set_address_window_emits ⟨0, 0, 240, 240, List.replicate 10 none⟩
    1 2 3 4 5 6 ⟨0, [], true⟩ rfl
  simpa using h

/-- C7 (amended): `show` emits the column-address-set command with window
data hard-coded to `[0x00, 0x00, 0x00, 0xEF]` (columns 0..=239), the
row-address-set command with the same hard-coded data (rows 0..=239),
ignoring the driver's configured width, height and calibration offset,
then the memory-write command and the whole buffer in a single data
transfer. -/
theorem show_full_frame_hardcoded (buffer : List Nat) (s : St)
    (hok : s.ok = true) :
    showBuffer okOracle buffer s =
      ⟨s.ctr + 6,
       s.trace ++
         [Ev.cmd 0x2A, Ev.dat [0x00, 0x00, 0x00, 0xEF], Ev.cmd 0x2B,
          Ev.dat [0x00, 0x00, 0x00, 0xEF], Ev.cmd 0x2C, Ev.dat buffer],
       true⟩ := by
  obtain ⟨c, tr, ok⟩ := s
  simp only [St.ok] at hok
  subst hok
  simp [showBuffer, write_command, write_data, emit, okOracle]

/-- Witness for `show_full_frame_hardcoded` at a concrete input. -/
theorem show_full_frame_hardcoded_witness :
    showBuffer okOracle [1, 2] ⟨0, [], true⟩ =
      ⟨6,
       [Ev.cmd 0x2A, Ev.dat [0x00, 0x00, 0x00, 0xEF], Ev.cmd 0x2B,
        Ev.dat [0x00, 0x00, 0x00, 0xEF], Ev.cmd 0x2C, Ev.dat [1, 2]],
       true⟩ := by
  have h := show_full_frame_hardcoded [1, 2] ⟨0, [], true⟩ rfl
  simpa using h

/-- C7 counterexample: for the driver with calibration offset `(1, 0)` on
a 240×240 panel, the byte stream put on the wire by `show` differs from
the byte stream the claim demands (full-panel window offset by `(dx, dy)`
then memory-write then the buffer): `show` hard-codes the window bytes
and ignores the offset. -/
theorem show_full_frame_ignores_offset :
    traceBytes (showBuffer okOracle [] ⟨0, [], true⟩).trace ≠
      traceBytes (claimedShow okOracle ⟨1, 0, 240, 240, List.replicate 10 none⟩
        [] ⟨0, [], true⟩).trace := by
  decide

/-- C9: a pixel write at coordinates outside `[0,width) × [0,height)`
leaves every byte of the frame buffer unchanged — `draw_iter` silently
skips it and returns Ok (it is total in the model). -/
theorem write_pixel_clipping (buffer : List Nat) (w h : Nat) (cx cy : Int)
    (color : Nat)
    (hout : ¬ (0 ≤ cx ∧ cx < (w : Int) ∧ 0 ≤ cy ∧ cy < (h : Int))) :
    draw_iter buffer w h [((cx, cy), color)] = buffer := by
  simp [draw_iter, draw_pixel, hout]

/-- Witness for `write_pixel_clipping` at the out-of-bounds pixel
`(-1, 0)` of a 1×1 buffer. -/
theorem write_pixel_clipping_witness :
    draw_iter [5, 5] 1 1 [(((-1 : Int), (0 : Int)), 7)] = [5, 5] :=
  write_pixel_clipping [5, 5] 1 1 (-1) 0 7 (by decide)

/-- C8: for the points `(10,10), (50,10), (30,40)` and padding 5, the
bounding-region operation returns exactly
`{x: 5, y: 5, width: 50, height: 40}`. -/
theorem calculate_bounding_box_example :
    calculate_bounding_box [((10 : Int), (10 : Int)), (50, 10), (30, 40)] 5 =
      ⟨5, 5, 50, 40⟩ := by
  decide

/-- C6 counterexample: for the single point `(0, 0)` with padding 5,
`calculate_bounding_box` returns a region with `x = 65531` (the `as u16`
cast of `-5`), which does not lie within the 240×240 buffer used by the
gauge example — no clamping to buffer bounds is performed. -/
theorem calculate_bounding_box_not_clamped :
    (calculate_bounding_box [((0 : Int), (0 : Int))] 5).x = 65531 ∧
      ¬ ((calculate_bounding_box [((0 : Int), (0 : Int))] 5).x +
           (calculate_bounding_box [((0 : Int), (0 : Int))] 5).width ≤ 240) := by
  decide

/-! ## Trace-extension lemmas: emitted events are only ever appended -/

lemma ext_comp {s1 s2 s3 : St} (h12 : ∃ t, s2.trace = s1.trace ++ t)
    (h23 : ∃ t, s3.trace = s2.trace ++ t) :
    ∃ t, s3.trace = s1.trace ++ t := by
  obtain ⟨a, ha⟩ := h12
  obtain ⟨b, hb⟩ := h23
  exact ⟨a ++ b, by rw [hb, ha, List.append_assoc]⟩

lemma emit_ext (o : Nat → Bool) (e : Ev) (s : St) :
    ∃ t, (emit o e s).trace = s.trace ++ t := by
  unfold emit
  split
  · split
    · exact ⟨[e], rfl⟩
    · exact ⟨[], by simp⟩
  · exact ⟨[], by simp⟩

lemma write_data_ext (o : Nat → Bool) (bs : List Nat) (s : St) :
    ∃ t, (write_data o bs s).trace = s.trace ++ t :=
  emit_ext o _ s

lemma write_command_ext (o : Nat → Bool) (c : Nat) (params : List Nat)
    (s : St) : ∃ t, (write_command o c params s).trace = s.trace ++ t := by
  unfold write_command
  split
  · exact emit_ext o _ s
  · exact ext_comp (emit_ext o _ s) (write_data_ext o _ _)

lemma write_word_ext (o : Nat → Bool) (v : Nat) (s : St) :
    ∃ t, (write_word o v s).trace = s.trace ++ t :=
  write_data_ext o _ s

lemma set_address_window_ext (o : Nat → Bool) (d : Driver)
    (sx sy ex ey : Nat) (s : St) :
    ∃ t, (set_address_window o d sx sy ex ey s).trace = s.trace ++ t := by
  unfold set_address_window
  exact ext_comp (write_command_ext o _ _ s)
    (ext_comp (write_word_ext o _ _)
      (ext_comp (write_word_ext o _ _)
        (ext_comp (write_command_ext o _ _ _)
          (ext_comp (write_word_ext o _ _) (write_word_ext o _ _)))))

lemma foldl_ext {α : Type} (f : St → α → St)
    (hf : ∀ st a, ∃ t, (f st a).trace = st.trace ++ t) :
    ∀ (l : List α) (st : St), ∃ t, (l.foldl f st).trace = st.trace ++ t := by
  intro l
  induction l with
  | nil => intro st; exact ⟨[], by simp⟩
  | cons a l ih =>
      intro st
      simp only [List.foldl_cons]
      exact ext_comp (hf st a) (ih (f st a))

lemma show_region_ext (o : Nat → Bool) (buffer : List Nat) (d : Driver)
    (x y wr hr : Nat) (s : St) :
    ∃ t, (show_region o buffer d x y wr hr s).trace = s.trace ++ t := by
  unfold show_region
  exact ext_comp (set_address_window_ext o d _ _ _ _ s)
    (ext_comp (write_command_ext o _ _ _)
      (foldl_ext _
        (fun st row => foldl_ext _ (fun st2 c => write_data_ext o c st2) _ st)
        _ _))

lemma foldl_filterMap (f : St → Region → St) :
    ∀ (regs : List (Option Region)) (s : St),
      regs.foldl
          (fun st o => match o with | some r => f st r | none => st) s
        = (regs.filterMap id).foldl f s := by
  intro regs
  induction regs with
  | nil => intro s; rfl
  | cons o regs ih =>
      intro s
      cases o with
      | none => simpa using ih s
      | some r => simpa using ih (f s r)

/-- C2: `show_regions(buffer)` processes exactly the occupied slots, in
slot (insertion) order — it equals the fold of `show_region` over
`regions.filterMap id`; once a transfer has failed (`ok = false`),
`show_region` is a no-op on the transport state, so no event is emitted
for any later slot and the error is surfaced in the final state; and the
trace only ever grows, so regions already transferred stay transferred. -/
theorem show_regions_slot_order (oracle : Nat → Bool) (buffer : List Nat)
    (d : Driver) (s : St) :
    show_regions oracle buffer d s =
        (d.regions.filterMap id).foldl
          (fun st r => show_region oracle buffer d r.x r.y r.width r.height st)
          s
      ∧ (∀ (r : Region) (st : St), st.ok = false →
          show_region oracle buffer d r.x r.y r.width r.height st = st)
      ∧ (∃ t, (show_regions oracle buffer d s).trace = s.trace ++ t) := by
  refine ⟨?_, ?_, ?_⟩
  · exact foldl_filterMap _ d.regions s
  · intro r st h
    exact show_region_notOk oracle buffer d r.x r.y r.width r.height st h
  · unfold show_regions
    exact foldl_ext _
      (fun st o => by
        cases o with
        | none => exact ⟨[], by simp⟩
        | some r => exact show_region_ext oracle buffer d r.x r.y r.width r.height st)
      _ s

/-- Witness for `show_regions_slot_order`: on an already-failed transport
state, `show_region` emits nothing and leaves the state unchanged. -/
theorem show_regions_slot_order_witness :
    show_region okOracle [] ⟨0, 0, 4, 4, List.replicate 10 none⟩ 0 0 1 1
        ⟨3, [Ev.cmd 0x2A], false⟩ =
      ⟨3, [Ev.cmd 0x2A], false⟩ :=
  (show_regions_slot_order okOracle [] ⟨0, 0, 4, 4, List.replicate 10 none⟩
      ⟨3, [Ev.cmd 0x2A], false⟩).2.1 ⟨0, 0, 1, 1⟩ ⟨3, [Ev.cmd 0x2A], false⟩ rfl

/-- C10: `show_regions_and_clear(buffer)` leaves the stored region set
exactly as it was when the transfer fails, and resets it to all-empty
(`clear_regions`) exactly when the transfer succeeds. -/
theorem show_regions_and_clear_preserves (oracle : Nat → Bool)
    (buffer : List Nat) (d : Driver) (s : St) :
    ((show_regions_and_clear oracle buffer d s).2.ok = false →
        (show_regions_and_clear oracle buffer d s).1 = d)
      ∧ ((show_regions_and_clear oracle buffer d s).2.ok = true →
        (show_regions_and_clear oracle buffer d s).1 = clear_regions d) := by
  unfold show_regions_and_clear
  by_cases h : (show_regions oracle buffer d s).ok
  · simp [h]
  · simp [h]

/-- Witness for `show_regions_and_clear_preserves`: with a transport whose
every write fails and one stored region, the transfer fails and the
region set is preserved. -/
theorem show_regions_and_clear_preserves_witness :
    (show_regions_and_clear (fun _ => false) []
        ⟨0, 0, 4, 4, [some ⟨0, 0, 1, 1⟩]⟩ ⟨0, [], true⟩).1 =
      ⟨0, 0, 4, 4, [some ⟨0, 0, 1, 1⟩]⟩ :=
  (show_regions_and_clear_preserves (fun _ => false) []
      ⟨0, 0, 4, 4, [some ⟨0, 0, 1, 1⟩]⟩ ⟨0, [], true⟩).1 (by decide)

/-! ## Region-set capacity lemmas -/

lemma store_region_free (pre : List Region) (m : Nat) (r : Region)
    (hm : 0 < m) :
    store_region (pre.map some ++ List.replicate m none) r
      = (pre.map some ++ (some r :: List.replicate (m - 1) none), true) := by
  induction pre with
  | nil =>
      cases m with
      | zero => omega
      | succ k => simp [store_region, List.replicate_succ]
  | cons p ps ih => simp [store_region, ih]

lemma store_region_full (pre : List Region) (r : Region) :
    store_region (pre.map some) r = (pre.map some, false) := by
  induction pre with
  | nil => rfl
  | cons p ps ih => simp [store_region, ih]

lemma storeSeq_fills (rs : List Region) :
    ∀ (pre : List Region) (m : Nat), rs.length ≤ m →
      storeSeq (pre.map some ++ List.replicate m none) rs
        = ((pre ++ rs).map some ++ List.replicate (m - rs.length) none,
           true) := by
  induction rs with
  | nil => intro pre m _; simp [storeSeq]
  | cons r rs ih =>
      intro pre m hm
      have hm' : rs.length + 1 ≤ m := by simpa using hm
      have hm0 : 0 < m := by omega
      have step := store_region_free pre m r hm0
      have hre : pre.map some ++ (some r :: List.replicate (m - 1) none)
          = (pre ++ [r]).map some ++ List.replicate (m - 1) none := by
        simp
      have hlen : rs.length ≤ m - 1 := by omega
      have tail := ih (pre ++ [r]) (m - 1) hlen
      have hnat : m - 1 - rs.length = m - (rs.length + 1) := by omega
      simp only [storeSeq, step, hre, tail, hnat, List.length_cons,
                 List.append_assoc, List.cons_append, List.nil_append,
                 Bool.and_self]

/-- C3: starting from the empty 10-slot region set, each of the first 10
`store_region` calls returns Ok and fills the first empty slot (after `k`
calls the set is the first `k` regions followed by `10 - k` empty
slots); an 11th call on the full set returns an error and leaves all 10
stored regions unchanged. -/
theorem store_region_capacity (rs : List Region) (hlen : rs.length = 10)
    (r : Region) :
    (∀ k, k ≤ 10 →
        storeSeq (List.replicate 10 none) (rs.take k)
          = ((rs.take k).map some ++ List.replicate (10 - k) none, true))
      ∧ store_region (rs.map some) r = (rs.map some, false) := by
  constructor
  · intro k hk
    have hlenk : (rs.take k).length ≤ 10 := by
      simp [List.length_take, hlen]
    have h := storeSeq_fills (rs.take k) [] 10 hlenk
    simpa [List.length_take, hlen, Nat.min_eq_left hk] using h
  · exact store_region_full rs r

/-- Witness for `store_region_capacity`: ten concrete insertions succeed
and the eleventh fails leaving the set unchanged. -/
theorem store_region_capacity_witness :
    storeSeq (List.replicate 10 none)
        [⟨0, 0, 1, 1⟩, ⟨1, 0, 1, 1⟩, ⟨2, 0, 1, 1⟩, ⟨3, 0, 1, 1⟩,
         ⟨4, 0, 1, 1⟩, ⟨5, 0, 1, 1⟩, ⟨6, 0, 1, 1⟩, ⟨7, 0, 1, 1⟩,
         ⟨8, 0, 1, 1⟩, ⟨9, 0, 1, 1⟩]
      = ([⟨0, 0, 1, 1⟩, ⟨1, 0, 1, 1⟩, ⟨2, 0, 1, 1⟩, ⟨3, 0, 1, 1⟩,
          ⟨4, 0, 1, 1⟩, ⟨5, 0, 1, 1⟩, ⟨6, 0, 1, 1⟩, ⟨7, 0, 1, 1⟩,
          ⟨8, 0, 1, 1⟩, ⟨9, 0, 1, 1⟩].map some, true)
      ∧ store_region
          ([⟨0, 0, 1, 1⟩, ⟨1, 0, 1, 1⟩, ⟨2, 0, 1, 1⟩, ⟨3, 0, 1, 1⟩,
            ⟨4, 0, 1, 1⟩, ⟨5, 0, 1, 1⟩, ⟨6, 0, 1, 1⟩, ⟨7, 0, 1, 1⟩,
            ⟨8, 0, 1, 1⟩, ⟨9, 0, 1, 1⟩].map some) ⟨99, 0, 1, 1⟩
        = ([⟨0, 0, 1, 1⟩, ⟨1, 0, 1, 1⟩, ⟨2, 0, 1, 1⟩, ⟨3, 0, 1, 1⟩,
            ⟨4, 0, 1, 1⟩, ⟨5, 0, 1, 1⟩, ⟨6, 0, 1, 1⟩, ⟨7, 0, 1, 1⟩,
            ⟨8, 0, 1, 1⟩, ⟨9, 0, 1, 1⟩].map some, false) := by
  constructor
  · have h := (store_region_capacity
      [⟨0, 0, 1, 1⟩, ⟨1, 0, 1, 1⟩, ⟨2, 0, 1, 1⟩, ⟨3, 0, 1, 1⟩,
       ⟨4, 0, 1, 1⟩, ⟨5, 0, 1, 1⟩, ⟨6, 0, 1, 1⟩, ⟨7, 0, 1, 1⟩,
       ⟨8, 0, 1, 1⟩, ⟨9, 0, 1, 1⟩] rfl ⟨99, 0, 1, 1⟩).1 10 (by decide)
    simpa using h
  · exact (store_region_capacity
      [⟨0, 0, 1, 1⟩, ⟨1, 0, 1, 1⟩, ⟨2, 0, 1, 1⟩, ⟨3, 0, 1, 1⟩,
       ⟨4, 0, 1, 1⟩, ⟨5, 0, 1, 1⟩, ⟨6, 0, 1, 1⟩, ⟨7, 0, 1, 1⟩,
       ⟨8, 0, 1, 1⟩, ⟨9, 0, 1, 1⟩] rfl ⟨99, 0, 1, 1⟩).2

/-! ## Chunking lemmas -/

lemma chunksGo_flatten (n : Nat) :
    ∀ (fuel : Nat) (l : List Nat), l.length ≤ fuel →
      (chunksGo fuel n l).flatten = l := by
  intro fuel
  induction fuel with
  | zero =>
      intro l hl
      have hnil : l = [] := List.eq_nil_of_length_eq_zero (Nat.le_zero.mp hl)
      subst hnil
      rfl
  | succ f ih =>
      intro l hl
      cases l with
      | nil => rfl
      | cons x xs =>
          have hxs : xs.length ≤ f := by simpa using hl
          have hdrop : (xs.drop (n - 1)).length ≤ f := by
            simp only [List.length_drop]
            omega
          simp only [chunksGo, List.flatten_cons]
          rw [ih _ hdrop]
          simp [List.take_append_drop]

lemma chunksGo_length_le (n : Nat) (hn : 0 < n) :
    ∀ (fuel : Nat) (l : List Nat), l.length ≤ fuel →
      ∀ c ∈ chunksGo fuel n l, c.length ≤ n := by
  intro fuel
  induction fuel with
  | zero =>
      intro l hl c hc
      have hnil : l = [] := List.eq_nil_of_length_eq_zero (Nat.le_zero.mp hl)
      subst hnil
      simp [chunksGo] at hc
  | succ f ih =>
      intro l hl c hc
      cases l with
      | nil => simp [chunksGo] at hc
      | cons x xs =>
          have hxs : xs.length ≤ f := by simpa using hl
          have hdrop : (xs.drop (n - 1)).length ≤ f := by
            simp only [List.length_drop]
            omega
          simp only [chunksGo, List.mem_cons] at hc
          rcases hc with h | h
          · subst h
            simp only [List.length_cons, List.length_take]
            omega
          · exact ih _ hdrop c h

lemma chunksGo_map_length (n : Nat) :
    ∀ (f1 : Nat) (l1 : List Nat) (f2 : Nat) (l2 : List Nat),
      l1.length ≤ f1 → l2.length ≤ f2 → l1.length = l2.length →
      (chunksGo f1 n l1).map List.length
        = (chunksGo f2 n l2).map List.length := by
  intro f1
  induction f1 with
  | zero =>
      intro l1 f2 l2 h1 h2 he
      have hn1 : l1 = [] := List.eq_nil_of_length_eq_zero (Nat.le_zero.mp h1)
      subst hn1
      have hn2 : l2 = [] := List.eq_nil_of_length_eq_zero (by simpa using he.symm)
      subst hn2
      cases f2 <;> rfl
  | succ f ih =>
      intro l1 f2 l2 h1 h2 he
      cases l1 with
      | nil =>
          have hn2 : l2 = [] :=
            List.eq_nil_of_length_eq_zero (by simpa using he.symm)
          subst hn2
          cases f2 <;> rfl
      | cons x xs =>
          cases l2 with
          | nil => simp at he
          | cons y ys =>
              cases f2 with
              | zero => simp at h2
              | succ g =>
                  have hxy : xs.length = ys.length := by simpa using he
                  have hx : xs.length ≤ f := by simpa using h1
                  have hy : ys.length ≤ g := by simpa using h2
                  have hd1 : (xs.drop (n - 1)).length ≤ f := by
                    simp only [List.length_drop]
                    omega
                  have hd2 : (ys.drop (n - 1)).length ≤ g := by
                    simp only [List.length_drop]
                    omega
                  have hde : (xs.drop (n - 1)).length = (ys.drop (n - 1)).length := by
                    simp [List.length_drop, hxy]
                  simp only [chunksGo, List.map_cons, List.length_cons,
                             List.length_take, hxy]
                  rw [ih _ g _ hd1 hd2 hde]

lemma chunksBy_flatten (n : Nat) (l : List Nat) :
    (chunksBy n l).flatten = l :=
  chunksGo_flatten n l.length l le_rfl

lemma chunksBy_length_le (n : Nat) (hn : 0 < n) (l : List Nat) :
    ∀ c ∈ chunksBy n l, c.length ≤ n :=
  chunksGo_length_le n hn l.length l le_rfl

lemma chunksBy_map_length (n : Nat) (l1 l2 : List Nat)
    (he : l1.length = l2.length) :
    (chunksBy n l1).map List.length = (chunksBy n l2).map List.length :=
  chunksGo_map_length n l1.length l1 l2.length l2 le_rfl le_rfl he

/-! ## Successful-transfer trace lemmas -/

lemma write_command_ok_empty (c : Nat) (s : St) (h : s.ok = true) :
    write_command okOracle c [] s = ⟨s.ctr + 1, s.trace ++ [Ev.cmd c], true⟩ := by
  simp [write_command, emit, okOracle, h]

lemma set_address_window_ok (d : Driver) (sx sy ex ey : Nat) (s : St)
    (h : s.ok = true) :
    set_address_window okOracle d sx sy ex ey s
      = ⟨s.ctr + 6, s.trace ++ awTrace d sx sy ex ey, true⟩ := by
  obtain ⟨c, tr, ok⟩ := s
  simp only [St.ok] at h
  subst h
  simp [set_address_window, awTrace, write_command, write_word, write_data,
        emit, okOracle]

lemma fold_chunks (cs : List (List Nat)) :
    ∀ (s : St), s.ok = true →
      cs.foldl (fun st c => write_data okOracle c st) s
        = ⟨s.ctr + cs.length, s.trace ++ cs.map Ev.dat, true⟩ := by
  induction cs with
  | nil =>
      intro s h
      obtain ⟨c0, t0, ok0⟩ := s
      simp only [St.ok] at h
      subst h
      simp
  | cons c cs ih =>
      intro s h
      rw [List.foldl_cons]
      have hw : write_data okOracle c s = ⟨s.ctr + 1, s.trace ++ [Ev.dat c], true⟩ := by
        simp [write_data, emit_ok _ s h]
      rw [hw, ih _ rfl]
      have harith : s.ctr + 1 + cs.length = s.ctr + (cs.length + 1) := by omega
      simp [harith, List.append_assoc]

lemma fold_rows (g : Nat → List (List Nat)) (rows : List Nat) :
    ∀ (s : St), s.ok = true →
      rows.foldl
          (fun st row =>
            (g row).foldl (fun st2 c => write_data okOracle c st2) st) s
        = ⟨s.ctr + (rows.map fun r => (g r).length).sum,
           s.trace ++ ((rows.map fun r => (g r).map Ev.dat)).flatten,
           true⟩ := by
  induction rows with
  | nil =>
      intro s h
      obtain ⟨c0, t0, ok0⟩ := s
      simp only [St.ok] at h
      subst h
      simp
  | cons row rows ih =>
      intro s h
      rw [List.foldl_cons, fold_chunks (g row) s h, ih _ rfl]
      have harith :
          s.ctr + (g row).length + (rows.map fun r => (g r).length).sum
            = s.ctr + ((g row).length + (rows.map fun r => (g r).length).sum) := by
        omega
      simp [harith, List.append_assoc]

lemma asU16_u32emod_small (a : Nat) (ha : a < 65536) :
    asU16 (u32emod (a : Int)) = a := by
  unfold u32emod asU16
  have h1 : ((a : Int)).emod 4294967296 = (a : Int) :=
    Int.emod_eq_of_lt (by positivity) (by exact_mod_cast by omega)
  rw [h1]
  have h2 : ((a : Int)).emod 65536 = (a : Int) :=
    Int.emod_eq_of_lt (by positivity) (by exact_mod_cast ha)
  rw [h2]
  exact Int.toNat_natCast a

/-- C4: for every in-bounds region, `show_region` streams each row of the
region as consecutive data writes of at most 32 bytes, whose
concatenation equals exactly the region's bytes of that row in the
source buffer (`rowBytes`, of length `width*2`); the full trace is the
address-window sequence, the memory-write command, then per row the
32-byte chunks of that row; and any 100-byte row yields exactly the
chunk lengths [32, 32, 32, 4]. -/
theorem show_region_chunking (buffer : List Nat) (d : Driver)
    (x y wr hr : Nat) (s : St) (hok : s.ok = true) (hwr : 0 < wr)
    (hhr : 0 < hr) (hx : x + wr ≤ d.width) (hy : y + hr ≤ d.height)
    (hw16 : d.width ≤ 65536) (hh16 : d.height ≤ 65536)
    (hbuf : buffer.length = d.width * d.height * 2) :
    (show_region okOracle buffer d x y wr hr s).trace
        = s.trace ++ awTrace d x y (x + wr - 1) (y + hr - 1)
          ++ [Ev.cmd 0x2C]
          ++ ((List.range' y hr).map
                (fun row =>
                  (chunksBy 32 (rowBytes buffer d.width x wr row)).map
                    Ev.dat)).flatten
      ∧ (show_region okOracle buffer d x y wr hr s).ok = true
      ∧ (∀ row, (chunksBy 32 (rowBytes buffer d.width x wr row)).flatten
            = rowBytes buffer d.width x wr row)
      ∧ (∀ row, ∀ c ∈ chunksBy 32 (rowBytes buffer d.width x wr row),
            c.length ≤ 32)
      ∧ (∀ row ∈ List.range' y hr,
            (rowBytes buffer d.width x wr row).length = wr * 2)
      ∧ (∀ l : List Nat, l.length = 100 →
            (chunksBy 32 l).map List.length = [32, 32, 32, 4]) := by
  have hex : asU16 (u32emod ((x : Int) + (wr : Int) - 1)) = x + wr - 1 := by
    have hcast : (x : Int) + (wr : Int) - 1 = ((x + wr - 1 : Nat) : Int) := by
      omega
    rw [hcast]
    exact asU16_u32emod_small _ (by omega)
  have hey : asU16 (u32emod ((y : Int) + (hr : Int) - 1)) = y + hr - 1 := by
    have hcast : (y : Int) + (hr : Int) - 1 = ((y + hr - 1 : Nat) : Int) := by
      omega
    rw [hcast]
    exact asU16_u32emod_small _ (by omega)
  have hcount : y + hr - 1 + 1 - y = hr := by omega
  have hmain :
      show_region okOracle buffer d x y wr hr s
        = ((List.range' y hr).foldl
            (fun st row =>
              (chunksBy 32 (rowBytes buffer d.width x wr row)).foldl
                (fun st2 c => write_data okOracle c st2) st)
            (write_command okOracle 0x2C []
              (set_address_window okOracle d x y (x + wr - 1) (y + hr - 1) s))) := by
    simp only [show_region, hex, hey, hcount]
  have hsaw := set_address_window_ok d x y (x + wr - 1) (y + hr - 1) s hok
  have hwc := write_command_ok_empty 0x2C
    (set_address_window okOracle d x y (x + wr - 1) (y + hr - 1) s)
    (by rw [hsaw])
  have hfold := fold_rows
    (fun row => chunksBy 32 (rowBytes buffer d.width x wr row))
    (List.range' y hr)
    (write_command okOracle 0x2C []
      (set_address_window okOracle d x y (x + wr - 1) (y + hr - 1) s))
    (by rw [hwc])
  refine ⟨?_, ?_, ?_, ?_, ?_, ?_⟩
  · rw [hmain, hfold, hwc, hsaw]
  · rw [hmain, hfold]
  · intro row
    exact chunksBy_flatten 32 _
  · intro row
    exact chunksBy_length_le 32 (by omega) _
  · intro row hrow
    have hmem : y ≤ row ∧ row < y + hr := by
      have := List.mem_range'_1.mp hrow
      omega
    have hrow1 : row + 1 ≤ d.height := by omega
    have hle : (row * d.width + x) * 2 + wr * 2 ≤ buffer.length := by
      rw [hbuf]
      have h1 : row * d.width + x + wr ≤ (row + 1) * d.width := by
        have : x + wr ≤ d.width := hx
        calc row * d.width + x + wr ≤ row * d.width + d.width := by omega
          _ = (row + 1) * d.width := by ring
      have h2 : (row + 1) * d.width ≤ d.height * d.width :=
        Nat.mul_le_mul_right _ hrow1
      calc (row * d.width + x) * 2 + wr * 2
            = (row * d.width + x + wr) * 2 := by ring
        _ ≤ (d.height * d.width) * 2 := by
            have := h1.trans h2
            omega
        _ = d.width * d.height * 2 := by ring
    simp only [rowBytes, List.length_take, List.length_drop]
    omega
  · intro l hl
    have h := chunksBy_map_length 32 l (List.range 100)
      (by simp [hl])
    rw [h]
    decide

/-- Witness for `show_region_chunking` at a concrete in-bounds region of
a 4×2 buffer. -/
theorem show_region_chunking_witness :
    (show_region okOracle (List.range 16) ⟨0, 0, 4, 2, []⟩ 1 0 2 2
        ⟨0, [], true⟩).ok = true :=
  (show_region_chunking (List.range 16) ⟨0, 0, 4, 2, []⟩ 1 0 2 2
      ⟨0, [], true⟩ rfl (by decide) (by decide) (by decide) (by decide)
      (by decide) (by decide) (by decide)).2.1

/-! ## Bounding-box lemmas -/

lemma asU16_exact (v : Int) (h0 : 0 ≤ v) (h1 : v < 65536) :
    (asU16 v : Int) = v := by
  unfold asU16
  rw [show Int.emod v 65536 = v % 65536 from rfl, Int.emod_eq_of_lt h0 h1,
      Int.toNat_of_nonneg h0]

lemma asU32_exact (v : Int) (h0 : 0 ≤ v) (h1 : v < 4294967296) :
    (asU32 v : Int) = v := by
  unfold asU32
  rw [show Int.emod v 4294967296 = v % 4294967296 from rfl,
      Int.emod_eq_of_lt h0 h1, Int.toNat_of_nonneg h0]

lemma fold_min_le (f : Int × Int → Int) :
    ∀ (l : List (Int × Int)) (a : Int),
      l.foldl (fun m q => if f q < m then f q else m) a ≤ a
        ∧ ∀ q ∈ l, l.foldl (fun m q => if f q < m then f q else m) a ≤ f q := by
  intro l
  induction l with
  | nil => intro a; exact ⟨le_refl a, by simp⟩
  | cons q t ih =>
      intro a
      simp only [List.foldl_cons]
      obtain ⟨h1, h2⟩ := ih (if f q < a then f q else a)
      have hba : (if f q < a then f q else a) ≤ a := by split <;> omega
      have hbq : (if f q < a then f q else a) ≤ f q := by split <;> omega
      refine ⟨h1.trans hba, ?_⟩
      intro r hr
      rcases List.mem_cons.mp hr with h | h
      · rw [h]; exact h1.trans hbq
      · exact h2 r h

lemma fold_min_attained (f : Int × Int → Int) :
    ∀ (l : List (Int × Int)) (a : Int),
      l.foldl (fun m q => if f q < m then f q else m) a = a
        ∨ l.foldl (fun m q => if f q < m then f q else m) a ∈ l.map f := by
  intro l
  induction l with
  | nil => intro a; exact Or.inl rfl
  | cons q t ih =>
      intro a
      simp only [List.foldl_cons, List.map_cons]
      rcases ih (if f q < a then f q else a) with h | h
      · by_cases hqa : f q < a
        · right
          rw [h, if_pos hqa]
          exact List.mem_cons_self _ _
        · left
          rw [h, if_neg hqa]
      · right
        exact List.mem_cons_of_mem _ h

lemma fold_max_le (f : Int × Int → Int) :
    ∀ (l : List (Int × Int)) (a : Int),
      a ≤ l.foldl (fun m q => if f q > m then f q else m) a
        ∧ ∀ q ∈ l, f q ≤ l.foldl (fun m q => if f q > m then f q else m) a := by
  intro l
  induction l with
  | nil => intro a; exact ⟨le_refl a, by simp⟩
  | cons q t ih =>
      intro a
      simp only [List.foldl_cons]
      obtain ⟨h1, h2⟩ := ih (if f q > a then f q else a)
      have hba : a ≤ (if f q > a then f q else a) := by split <;> omega
      have hbq : f q ≤ (if f q > a then f q else a) := by split <;> omega
      refine ⟨hba.trans h1, ?_⟩
      intro r hr
      rcases List.mem_cons.mp hr with h | h
      · rw [h]; exact hbq.trans h1
      · exact h2 r h

lemma fold_max_attained (f : Int × Int → Int) :
    ∀ (l : List (Int × Int)) (a : Int),
      l.foldl (fun m q => if f q > m then f q else m) a = a
        ∨ l.foldl (fun m q => if f q > m then f q else m) a ∈ l.map f := by
  intro l
  induction l with
  | nil => intro a; exact Or.inl rfl
  | cons q t ih =>
      intro a
      simp only [List.foldl_cons, List.map_cons]
      rcases ih (if f q > a then f q else a) with h | h
      · by_cases hqa : f q > a
        · right
          rw [h, if_pos hqa]
          exact List.mem_cons_self _ _
        · left
          rw [h, if_neg hqa]
      · right
        exact List.mem_cons_of_mem _ h

/-- C6 (amended): for every non-empty point list whose minimal
coordinates are at least the padding `P` (no `u16` underflow) and whose
expanded extents fit the 16/32-bit casts, `calculate_bounding_box`
returns the minimal axis-aligned rectangle covering all the points
expanded by `P` pixels on every side: `x = min_x - P`, `y = min_y - P`,
`width = max_x - min_x + 2P`, `height = max_y - min_y + 2P`, where the
min/max bound every point and are attained by points of the list.  No
clamping to any buffer bounds is performed (see the counterexample). -/
theorem calculate_bounding_box_minimal (p : Int × Int)
    (rest : List (Int × Int)) (P : Nat)
    (hpx : (P : Int) ≤ minXfold p.1 rest)
    (hpy : (P : Int) ≤ minYfold p.2 rest)
    (hx16 : minXfold p.1 rest - P < 65536)
    (hy16 : minYfold p.2 rest - P < 65536)
    (hw32 : maxXfold p.1 rest - minXfold p.1 rest + 2 * P < 4294967296)
    (hh32 : maxYfold p.2 rest - minYfold p.2 rest + 2 * P < 4294967296) :
    (((calculate_bounding_box (p :: rest) P).x : Int)
          = minXfold p.1 rest - P
      ∧ ((calculate_bounding_box (p :: rest) P).y : Int)
          = minYfold p.2 rest - P
      ∧ ((calculate_bounding_box (p :: rest) P).width : Int)
          = maxXfold p.1 rest - minXfold p.1 rest + 2 * P
      ∧ ((calculate_bounding_box (p :: rest) P).height : Int)
          = maxYfold p.2 rest - minYfold p.2 rest + 2 * P)
      ∧ (∀ q ∈ p :: rest,
          minXfold p.1 rest ≤ q.1 ∧ q.1 ≤ maxXfold p.1 rest
            ∧ minYfold p.2 rest ≤ q.2 ∧ q.2 ≤ maxYfold p.2 rest)
      ∧ minXfold p.1 rest ∈ (p :: rest).map Prod.fst
      ∧ maxXfold p.1 rest ∈ (p :: rest).map Prod.fst
      ∧ minYfold p.2 rest ∈ (p :: rest).map Prod.snd
      ∧ maxYfold p.2 rest ∈ (p :: rest).map Prod.snd := by
  have hminx := fold_min_le Prod.fst rest p.1
  have hmaxx := fold_max_le Prod.fst rest p.1
  have hminy := fold_min_le Prod.snd rest p.2
  have hmaxy := fold_max_le Prod.snd rest p.2
  have hcover : ∀ q ∈ p :: rest,
      minXfold p.1 rest ≤ q.1 ∧ q.1 ≤ maxXfold p.1 rest
        ∧ minYfold p.2 rest ≤ q.2 ∧ q.2 ≤ maxYfold p.2 rest := by
    intro q hq
    rcases List.mem_cons.mp hq with h | h
    · subst h
      exact ⟨hminx.1, hmaxx.1, hminy.1, hmaxy.1⟩
    · exact ⟨hminx.2 q h, hmaxx.2 q h, hminy.2 q h, hmaxy.2 q h⟩
  have hminmaxx : minXfold p.1 rest ≤ maxXfold p.1 rest :=
    (hcover p (List.mem_cons_self _ _)).1.trans (hcover p (List.mem_cons_self _ _)).2.1
  have hminmaxy : minYfold p.2 rest ≤ maxYfold p.2 rest :=
    (hcover p (List.mem_cons_self _ _)).2.2.1.trans
      (hcover p (List.mem_cons_self _ _)).2.2.2
  have hattmin : ∀ (f : Int × Int → Int) (a : Int),
      rest.foldl (fun m q => if f q < m then f q else m) a = a
        ∨ rest.foldl (fun m q => if f q < m then f q else m) a ∈ rest.map f :=
    fun f a => fold_min_attained f rest a
  refine ⟨?_, hcover, ?_, ?_, ?_, ?_⟩
  · simp only [calculate_bounding_box]
    refine ⟨?_, ?_, ?_, ?_⟩
    · exact asU16_exact _ (by omega) (by omega)
    · exact asU16_exact _ (by omega) (by omega)
    · exact asU32_exact _ (by omega) (by omega)
    · exact asU32_exact _ (by omega) (by omega)
  · rcases fold_min_attained Prod.fst rest p.1 with h | h
    · rw [minXfold, h]; simp
    · rw [minXfold]; simp only [List.map_cons]; exact List.mem_cons_of_mem _ h
  · rcases fold_max_attained Prod.fst rest p.1 with h | h
    · rw [maxXfold, h]; simp
    · rw [maxXfold]; simp only [List.map_cons]; exact List.mem_cons_of_mem _ h
  · rcases fold_min_attained Prod.snd rest p.2 with h | h
    · rw [minYfold, h]; simp
    · rw [minYfold]; simp only [List.map_cons]; exact List.mem_cons_of_mem _ h
  · rcases fold_max_attained Prod.snd rest p.2 with h | h
    · rw [maxYfold, h]; simp
    · rw [maxYfold]; simp only [List.map_cons]; exact List.mem_cons_of_mem _ h

/-- Witness for `calculate_bounding_box_minimal` at the P4 example
points. -/
theorem calculate_bounding_box_minimal_witness :
    ((calculate_bounding_box [((10 : Int), (10 : Int)), (50, 10), (30, 40)]
        5).x : Int) = minXfold 10 [(50, 10), (30, 40)] - 5 :=
  (calculate_bounding_box_minimal (10, 10) [(50, 10), (30, 40)] 5
      (by decide) (by decide) (by decide) (by decide) (by decide)
      (by decide)).1.1

/-! ## Buffer copy lemmas -/

lemma writeSlice_length :
    ∀ (vs l : List Nat) (i : Nat), (writeSlice l i vs).length = l.length := by
  intro vs
  induction vs with
  | nil => intro l i; rfl
  | cons v vs ih =>
      intro l i
      simp only [writeSlice, ih, List.length_set]

lemma writeSlice_getElem_lt :
    ∀ (vs l : List Nat) (i j : Nat), j < i → (writeSlice l i vs)[j]? = l[j]? := by
  intro vs
  induction vs with
  | nil => intro l i j _; rfl
  | cons v vs ih =>
      intro l i j hj
      simp only [writeSlice]
      rw [ih _ _ _ (by omega)]
      exact List.getElem?_set_ne (by omega)

lemma writeSlice_getElem_ge :
    ∀ (vs l : List Nat) (i j : Nat), i + vs.length ≤ j →
      (writeSlice l i vs)[j]? = l[j]? := by
  intro vs
  induction vs with
  | nil => intro l i j _; rfl
  | cons v vs ih =>
      intro l i j hj
      simp only [List.length_cons] at hj
      simp only [writeSlice]
      rw [ih _ _ _ (by omega)]
      exact List.getElem?_set_ne (by omega)

lemma writeSlice_getElem_in :
    ∀ (vs l : List Nat) (i k : Nat), k < vs.length → i + k < l.length →
      (writeSlice l i vs)[i + k]? = vs[k]? := by
  intro vs
  induction vs with
  | nil => intro l i k hk _; simp at hk
  | cons v vs ih =>
      intro l i k hk hlen
      cases k with
      | zero =>
          simp only [writeSlice, Nat.add_zero]
          rw [writeSlice_getElem_lt vs _ (i + 1) i (by omega)]
          have hset : (l.set i v)[i]? = some v :=
            List.getElem?_set_eq_of_lt v (by omega)
          rw [hset]
          simp
      | succ k =>
          have hgoal : i + (k + 1) = (i + 1) + k := by omega
          rw [hgoal]
          simp only [writeSlice]
          rw [ih (l.set i v) (i + 1) k (by simpa using hk)
              (by rw [List.length_set]; omega)]
          simp

lemma copy_region_succ (dst src : List Nat) (w sx sy sw sh dx dy : Nat) :
    copy_region dst src w sx sy sw (sh + 1) dx dy
      = writeSlice (copy_region dst src w sx sy sw sh dx dy)
          ((dy + sh) * w * 2 + dx * 2)
          ((src.drop ((sy + sh) * w * 2 + sx * 2)).take (sw * 2)) := by
  unfold copy_region
  rw [List.range_succ, List.foldl_append]
  rfl

lemma copy_region_length (src : List Nat) (w sx sy sw dx dy : Nat) :
    ∀ (sh : Nat) (dst : List Nat),
      (copy_region dst src w sx sy sw sh dx dy).length = dst.length := by
  intro sh
  induction sh with
  | zero => intro dst; rfl
  | succ sh ih =>
      intro dst
      rw [copy_region_succ, writeSlice_length, ih]

lemma inRB_succ (w sx sy sw sh j : Nat) :
    inRB w sx sy sw (sh + 1) j
      = (inRB w sx sy sw sh j ||
          (decide ((sy + sh) * w * 2 + sx * 2 ≤ j) &&
           decide (j < (sy + sh) * w * 2 + sx * 2 + sw * 2))) := by
  unfold inRB
  rw [List.range_succ, List.any_append]
  simp

lemma copy_region_getElem (w hh sx sy sw : Nat) (src : List Nat)
    (hsrc : src.length = w * hh * 2) (hx : sx + sw ≤ w) :
    ∀ (sh : Nat), sy + sh ≤ hh →
      ∀ (dst : List Nat), dst.length = w * hh * 2 →
        ∀ j, (copy_region dst src w sx sy sw sh sx sy)[j]?
          = if inRB w sx sy sw sh j then src[j]? else dst[j]? := by
  intro sh
  induction sh with
  | zero =>
      intro _ dst _ j
      simp [copy_region, inRB]
  | succ sh ih =>
      intro hsh dst hdst j
      have hsh' : sy + sh ≤ hh := by omega
      have hA : (sy + sh) * w * 2 + sx * 2 + sw * 2 ≤ w * hh * 2 := by
        have h1 : (sy + sh) * w + (sx + sw) ≤ (sy + sh) * w + w := by omega
        have h2 : (sy + sh) * w + w = (sy + sh + 1) * w := by ring
        have h3 : (sy + sh + 1) * w ≤ hh * w :=
          Nat.mul_le_mul_right _ (by omega)
        have h4 : hh * w = w * hh := Nat.mul_comm hh w
        omega
      have hrowlen : ((src.drop ((sy + sh) * w * 2 + sx * 2)).take (sw * 2)).length
          = sw * 2 := by
        simp only [List.length_take, List.length_drop]
        omega
      rw [copy_region_succ, inRB_succ]
      by_cases hin : (sy + sh) * w * 2 + sx * 2 ≤ j ∧
          j < (sy + sh) * w * 2 + sx * 2 + sw * 2
      · obtain ⟨hin1, hin2⟩ := hin
        have hlen1 : (copy_region dst src w sx sy sw sh sx sy).length = w * hh * 2 := by
          rw [copy_region_length, hdst]
        have hwrite := writeSlice_getElem_in
          ((src.drop ((sy + sh) * w * 2 + sx * 2)).take (sw * 2))
          (copy_region dst src w sx sy sw sh sx sy)
          ((sy + sh) * w * 2 + sx * 2)
          (j - ((sy + sh) * w * 2 + sx * 2))
          (by rw [hrowlen]; omega)
          (by rw [hlen1]; omega)
        have hidx : (sy + sh) * w * 2 + sx * 2 + (j - ((sy + sh) * w * 2 + sx * 2)) = j := by
          omega
        rw [hidx] at hwrite
        rw [hwrite]
        have htake : ((src.drop ((sy + sh) * w * 2 + sx * 2)).take (sw * 2))[j - ((sy + sh) * w * 2 + sx * 2)]?
            = (src.drop ((sy + sh) * w * 2 + sx * 2))[j - ((sy + sh) * w * 2 + sx * 2)]? :=
          List.getElem?_take_of_lt (by omega)
        rw [htake, List.getElem?_drop, hidx]
        have hcond : (inRB w sx sy sw sh j ||
            (decide ((sy + sh) * w * 2 + sx * 2 ≤ j) &&
             decide (j < (sy + sh) * w * 2 + sx * 2 + sw * 2))) = true := by
          simp [hin1, hin2]
        rw [hcond]
        simp
      · have hout : j < (sy + sh) * w * 2 + sx * 2 ∨
            (sy + sh) * w * 2 + sx * 2 + sw * 2 ≤ j := by omega
        have hrow_false : (decide ((sy + sh) * w * 2 + sx * 2 ≤ j) &&
            decide (j < (sy + sh) * w * 2 + sx * 2 + sw * 2)) = false := by
          rcases hout with h | h <;> simp [decide_eq_true_eq] <;> omega
        rw [hrow_false, Bool.or_false]
        have hskip : (writeSlice (copy_region dst src w sx sy sw sh sx sy)
            ((sy + sh) * w * 2 + sx * 2)
            ((src.drop ((sy + sh) * w * 2 + sx * 2)).take (sw * 2)))[j]?
            = (copy_region dst src w sx sy sw sh sx sy)[j]? := by
          rcases hout with h | h
          · exact writeSlice_getElem_lt _ _ _ _ h
          · exact writeSlice_getElem_ge _ _ _ _ (by rw [hrowlen]; omega)
        rw [hskip]
        exact ih hsh' dst hdst j

/-- C1: after `copy_region(src, R, R.origin)`, then arbitrary byte
mutations confined to R's byte footprint (`b2` agrees with the copied
buffer outside R), a second `copy_region(src, R, R.origin)` restores
every byte inside R to `src`'s byte and leaves every byte outside R with
the value the original buffer `fb` had before the whole sequence. -/
theorem copy_region_round_trip (w hh sx sy sw sh : Nat)
    (fb src b2 : List Nat) (hfb : fb.length = w * hh * 2)
    (hsrc : src.length = w * hh * 2) (hx : sx + sw ≤ w)
    (hy : sy + sh ≤ hh) (hb2 : b2.length = w * hh * 2)
    (hagree : ∀ j, j < w * hh * 2 → inRB w sx sy sw sh j = false →
        b2[j]? = (copy_region fb src w sx sy sw sh sx sy)[j]?) :
    ∀ j,
      (inRB w sx sy sw sh j = true →
        (copy_region b2 src w sx sy sw sh sx sy)[j]? = src[j]?)
      ∧ (inRB w sx sy sw sh j = false →
        (copy_region b2 src w sx sy sw sh sx sy)[j]? = fb[j]?) := by
  intro j
  have hchar2 := copy_region_getElem w hh sx sy sw src hsrc hx sh hy b2 hb2 j
  constructor
  · intro ht
    rw [hchar2, ht]
    simp
  · intro hf
    rw [hchar2, hf]
    simp only [Bool.false_eq_true, if_false]
    by_cases hj : j < w * hh * 2
    · rw [hagree j hj hf]
      have hchar1 := copy_region_getElem w hh sx sy sw src hsrc hx sh hy fb hfb j
      rw [hchar1, hf]
      simp
    · have hnone2 : b2[j]? = none := List.getElem?_eq_none (by omega)
      have hnonef : fb[j]? = none := List.getElem?_eq_none (by omega)
      rw [hnone2, hnonef]

/-- Witness for `copy_region_round_trip` on a 2×2 buffer with the region
covering column 1 of both rows: byte 2 (inside R) is restored from the
source after being overwritten. -/
theorem copy_region_round_trip_witness :
    (copy_region [0, 1, 99, 98, 4, 5, 97, 96]
        [10, 11, 12, 13, 14, 15, 16, 17] 2 1 0 1 2 1 0)[2]?
      = [10, 11, 12, 13, 14, 15, 16, 17][2]? :=
  (copy_region_round_trip 2 2 1 0 1 2 [0, 1, 2, 3, 4, 5, 6, 7]
      [10, 11, 12, 13, 14, 15, 16, 17] [0, 1, 99, 98, 4, 5, 97, 96]
      (by decide) (by decide) (by decide) (by decide) (by decide)
      (by decide) 2).1 (by decide)

end GC9A01A
